import Mathlib

/-!
Shallow embedding of the `lisparser` crate: the parser-combinator core
(`src/parser_comb.rs`) and the Lisp-like grammar built on top of it
(`src/lisp_comb.rs`).

Modelling conventions:

* Rust `&str` input is modelled as a list of Unicode scalar values
  (`Str := List Char`).  The source advances its input by the *byte* slice
  `&input[1..]` after inspecting `input.chars().next()`; that slice panics
  at runtime whenever the first character occupies more than one UTF-8
  byte.  The embedding keeps track of this through `Char.utf8Size` and a
  dedicated `panic` outcome.
* `Result<(T, &str), Error>` becomes `PRes α` with an explicit `panic`
  constructor (a Rust panic/abort) and a `more` constructor used by the
  fuel-indexed unfoldings of the `while` loops in `many` and
  `Until::parse` (`more` means "the loop has not finished within the given
  iteration budget"; a run of the real code corresponds to the limit of
  unbounded fuel, so divergence of a loop is `= more` for every fuel).
* A parser value is its parse function: `Parser α := Str → PRes α`.  The
  crate's `from_fn` escape hatch admits arbitrary such functions, so
  claims quantified over "every parser" are quantified over this function
  type; `panic`-freedom or totality are stated as explicit hypotheses
  where a claim needs them.
-/

/-- Rust string slices, modelled as lists of Unicode scalar values. -/
abbrev Str := List Char

/-- Outcome of one parser invocation: success with a value and the
unconsumed remainder, failure (`Err(Error)`), a Rust panic, or `more`
(a loop's fuel budget ran out before the loop finished). -/
inductive PRes (α : Type) where
  | ok (val : α) (rest : Str)
  | err
  | panic
  | more
deriving DecidableEq

/-- A parser is its parse function, as in `impl Parser for FromFn`. -/
abbrev Parser (α : Type) : Type := Str → PRes α

/-- The crate's two-variant tagged union `Either<A, B>` returned by `or`. -/
inductive Either (α β : Type) where
  | A (a : α)
  | B (b : β)
deriving DecidableEq

/-- Outcome of the top-level entry point `parse` (no remainder returned). -/
inductive RRes (α : Type) where
  | ok (val : α)
  | err
  | panic
  | more
deriving DecidableEq

namespace PC

/-- Embeds `pub fn parse<P: Parser>(parser, input)`: run the parser and
succeed only when the remainder is empty. -/
def parse (p : Parser α) (input : Str) : RRes α :=
  match p input with
  | .ok v rest => if rest = [] then .ok v else .err
  | .err => .err
  | .panic => .panic
  | .more => .more

/-- Embeds `pub fn character(c: char)`.  The source matches
`input.chars().next()` against `c` and on equality returns
`Ok((c, &input[1..]))`; the byte slice `&input[1..]` panics unless the
first character is exactly one UTF-8 byte wide. -/
def character (c : Char) : Parser Char := fun input =>
  match input with
  | [] => .err
  | ch :: rest =>
    if ch = c then
      if ch.utf8Size = 1 then .ok c rest else .panic
    else .err

/-- Embeds `pub fn any()`: take any first character, `Err` on empty input;
the remainder is again the byte slice `&input[1..]`. -/
def any : Parser Char := fun input =>
  match input with
  | [] => .err
  | ch :: rest =>
    if ch.utf8Size = 1 then .ok ch rest else .panic

/-- Embeds `pub fn one_of(chars: &str)`: fail on an empty set, otherwise
accept a first character contained in `chars` (remainder `&input[1..]`). -/
def one_of (chars : List Char) : Parser Char := fun input =>
  if chars = [] then .err
  else
    match input with
    | [] => .err
    | ch :: rest =>
      if ch ∈ chars then
        if ch.utf8Size = 1 then .ok ch rest else .panic
      else .err

/-- Embeds `pub fn range(r: RangeInclusive<char>)`: fail when the range is
empty (`hi < lo`), otherwise accept a first character inside the bounds
(remainder `&input[1..]`). -/
def range (lo hi : Char) : Parser Char := fun input =>
  if hi < lo then .err
  else
    match input with
    | [] => .err
    | ch :: rest =>
      if lo ≤ ch ∧ ch ≤ hi then
        if ch.utf8Size = 1 then .ok ch rest else .panic
      else .err

/-- Embeds `impl Parser for Map`: apply `f` to a successful value. -/
def map (p : Parser α) (f : α → β) : Parser β := fun input =>
  match p input with
  | .ok v rest => .ok (f v) rest
  | .err => .err
  | .panic => .panic
  | .more => .more

/-- Embeds `impl Parser for FlatMap`: run `p`, feed its value to `f`, run
the resulting parser on the remainder. -/
def flat_map (p : Parser α) (f : α → Parser β) : Parser β := fun input =>
  match p input with
  | .ok v rest => f v rest
  | .err => .err
  | .panic => .panic
  | .more => .more

/-- Embeds `impl Parser for ZipLeft`: run both in order, keep the left
value. -/
def zip_left (p : Parser α) (q : Parser β) : Parser α := fun input =>
  match p input with
  | .ok v rest =>
    match q rest with
    | .ok _ rest2 => .ok v rest2
    | .err => .err
    | .panic => .panic
    | .more => .more
  | .err => .err
  | .panic => .panic
  | .more => .more

/-- Embeds `impl Parser for ZipRight`: run both in order, keep the right
value. -/
def zip_right (p : Parser α) (q : Parser β) : Parser β := fun input =>
  match p input with
  | .ok _ rest => q rest
  | .err => .err
  | .panic => .panic
  | .more => .more

/-- Embeds `impl Parser for Or`: try `first` on the input; only when it
returns `Err` try `second` on the same original input. -/
def or (p : Parser α) (q : Parser β) : Parser (Either α β) := fun input =>
  match p input with
  | .ok v rest => .ok (.A v) rest
  | .err =>
    match q input with
    | .ok v rest => .ok (.B v) rest
    | .err => .err
    | .panic => .panic
    | .more => .more
  | .panic => .panic
  | .more => .more

/-- Fuel-indexed unfolding of the `while let Ok((ch, rest)) = parser.parse(input)`
loop in `pub fn many`: accumulate successes, stop (successfully, without
consuming the failed attempt) at the first `Err`.  Fuel bounds the number
of loop iterations; exhausted fuel yields `more`. -/
def manyF (p : Parser α) : Nat → Parser (List α)
  | 0, _ => .more
  | fuel + 1, input =>
    match p input with
    | .ok v rest =>
      match manyF p fuel rest with
      | .ok vs rest2 => .ok (v :: vs) rest2
      | .err => .err
      | .panic => .panic
      | .more => .more
    | .err => .ok [] input
    | .panic => .panic
    | .more => .more

/-- Fuel-indexed unfolding of the `while let Err(..) = self.until.parse(input)`
loop in `impl Parser for Until`: probe the terminator without consuming;
on its success stop and return the accumulated values with the input still
positioned before the terminator; on its failure run the element parser
once and continue from its remainder, propagating its `Err`. -/
def untilGo (p : Parser α) (q : Parser β) : Nat → Parser (List α)
  | 0, _ => .more
  | fuel + 1, input =>
    match q input with
    | .ok _ _ => .ok [] input
    | .err =>
      match p input with
      | .ok v rest =>
        match untilGo p q fuel rest with
        | .ok vs rest2 => .ok (v :: vs) rest2
        | .err => .err
        | .panic => .panic
        | .more => .more
      | .err => .err
      | .panic => .panic
      | .more => .more
    | .panic => .panic
    | .more => .more

/-- Embeds `Until::parse`: reject empty input up front, then run the
probe-and-consume loop `untilGo`. -/
def untilP (p : Parser α) (q : Parser β) (fuel : Nat) : Parser (List α) :=
  fun input => if input = [] then .err else untilGo p q fuel input

/-- Embeds `pub fn whitespace()`: a space, newline or tab, mapped to unit. -/
def whitespace : Parser Unit :=
  map (or (or (character ' ') (character '\n')) (character '\t')) (fun _ => ())

end PC

/-- The crate's `LispObject` node type (`src/lib.rs`); Rust `String`
payloads are modelled as `Str`. -/
inductive LispObject where
  | List (l : List LispObject)
  | String (s : Str)
  | Ident (s : Str)

namespace LC

/-- The `Get::get` projection instantiated at `Either<Either<T, T>, T>`,
as trait resolution produces it for a two-deep `or` chain: unwrap the
tags, leaves are returned as they are. -/
def get2 {α : Type} : Either (Either α α) α → α
  | .A (.A x) => x
  | .A (.B x) => x
  | .B x => x

/-- The `Get::get` projection instantiated at a three-deep `or` chain. -/
def get3 {α : Type} : Either (Either (Either α α) α) α → α
  | .A e => get2 e
  | .B x => x

/-- Embeds `pub fn string()` (`src/lisp_comb.rs`): a quote, then any
characters until the closing quote, the closing quote itself discarded by
`zip_left`; `collect` from `Vec<char>` to `String` is the identity here. -/
def string (fuel : Nat) : Parser Str :=
  PC.map
    (PC.zip_left
      (PC.flat_map (PC.character '"')
        (fun _ => PC.untilP PC.any (PC.character '"') fuel))
      (PC.character '"'))
    (fun cs => cs)

/-- The `first` sub-parser built inside `ident`: underscore or an ASCII
letter, collapsed with `Get::get`. -/
def identFirst : Parser Char :=
  PC.map
    (PC.or (PC.or (PC.character '_') (PC.range 'a' 'z')) (PC.range 'A' 'Z'))
    get2

/-- The element of the `other` repetition inside `ident`: underscore,
ASCII letter or digit, collapsed with `Get::get`. -/
def identOther : Parser Char :=
  PC.map
    (PC.or
      (PC.or (PC.or (PC.character '_') (PC.range 'a' 'z')) (PC.range 'A' 'Z'))
      (PC.range '0' '9'))
    get3

/-- Embeds `pub fn ident()`: run `first`, then `many(other)`, both `Err`s
propagated by `?`, and return `first_char` prepended to the rest. -/
def ident (fuel : Nat) : Parser Str := fun input =>
  match identFirst input with
  | .ok c rest =>
    match PC.manyF identOther fuel rest with
    | .ok cs rest2 => .ok (c :: cs) rest2
    | .err => .err
    | .panic => .panic
    | .more => .more
  | .err => .err
  | .panic => .panic
  | .more => .more

/-- Modelled from the Rust standard library: `str::parse::<i32>`
restricted to the only inputs `number` can hand it — a possibly empty
ASCII-digit string.  It fails on the empty string, reads the digits in
base ten, and fails when the value exceeds `i32::MAX = 2147483647`; a
sign or any non-digit cannot occur here. -/
def i32FromDigits (cs : Str) : Option Int :=
  if cs = [] then none
  else
    let n : Nat := cs.foldl (fun acc c => acc * 10 + (c.toNat - 48)) 0
    if n ≤ 2147483647 then some (n : Int) else none

/-- Embeds `pub fn number()`: `many(range('0'..='9'))`, then convert the
collected digits with `str::parse::<i32>`, failing when that fails. -/
def number (fuel : Nat) : Parser Int := fun input =>
  match PC.manyF (PC.range '0' '9') fuel input with
  | .ok cs rest =>
    match i32FromDigits cs with
    | some n => .ok n rest
    | none => .err
  | .err => .err
  | .panic => .panic
  | .more => .more

/-- Embeds `pub fn lisp_string()`. -/
def lisp_string (fuel : Nat) : Parser LispObject :=
  PC.map (string fuel) LispObject.String

/-- Embeds `pub fn lisp_ident()`. -/
def lisp_ident (fuel : Nat) : Parser LispObject :=
  PC.map (ident fuel) LispObject.Ident

/-- Embeds `pub fn lisp_list()`, with the lazily recursive `lisp_object`
passed in as `obj`: `(`, optional whitespace, objects each followed by
optional whitespace, optional whitespace, `)`, optional whitespace. -/
def lisp_list (obj : Parser LispObject) (fuel : Nat) : Parser LispObject :=
  PC.map
    (PC.zip_left
      (PC.zip_left
        (PC.zip_left
          (PC.zip_right
            (PC.zip_left (PC.character '(') (PC.manyF PC.whitespace fuel))
            (PC.manyF (PC.zip_left obj (PC.manyF PC.whitespace fuel)) fuel))
          (PC.manyF PC.whitespace fuel))
        (PC.character ')'))
      (PC.manyF PC.whitespace fuel))
    LispObject.List

/-- Embeds `pub fn lisp_object()`: a string, an identifier or a list,
collapsed with `Get::get`.  In the source the recursion
`lisp_object → lisp_list → lisp_object` unfolds lazily through `from_fn`
closures; here `fuel` bounds that unfolding depth (and every loop). -/
def lisp_object : Nat → Parser LispObject
  | 0 => fun _ => .more
  | fuel + 1 =>
    PC.map
      (PC.or (PC.or (lisp_string fuel) (lisp_ident fuel))
        (lisp_list (lisp_object fuel) fuel))
      get2

end LC

/-- Syntax of the parsers claim C8 quantifies over: everything built by
composing the crate's primitives (`character`, `range`, `one_of`, `any`)
with its combinators (`map`, `flat_map`, `zip_left`, `zip_right`, `or`,
`many`, `until`).  The functions embedded in `map`/`flat_map` are
arbitrary, as in the source's generic bounds. -/
inductive PSyn : Type → Type 1 where
  | character : Char → PSyn Char
  | range : Char → Char → PSyn Char
  | one_of : List Char → PSyn Char
  | any : PSyn Char
  | map : {α β : Type} → PSyn α → (α → β) → PSyn β
  | flat_map : {α β : Type} → PSyn α → (α → PSyn β) → PSyn β
  | zip_left : {α β : Type} → PSyn α → PSyn β → PSyn α
  | zip_right : {α β : Type} → PSyn α → PSyn β → PSyn β
  | or : {α β : Type} → PSyn α → PSyn β → PSyn (Either α β)
  | many : {α : Type} → PSyn α → PSyn (List α)
  | untilC : {α β : Type} → PSyn α → PSyn β → PSyn (List α)

/-- Denotation of a composed parser; `fuel` bounds every loop inside. -/
def denote : {α : Type} → PSyn α → Nat → Parser α
  | _, .character c, _ => PC.character c
  | _, .range lo hi, _ => PC.range lo hi
  | _, .one_of cs, _ => PC.one_of cs
  | _, .any, _ => PC.any
  | _, .map p f, fuel => PC.map (denote p fuel) f
  | _, .flat_map p f, fuel => PC.flat_map (denote p fuel) (fun v => denote (f v) fuel)
  | _, .zip_left p q, fuel => PC.zip_left (denote p fuel) (denote q fuel)
  | _, .zip_right p q, fuel => PC.zip_right (denote p fuel) (denote q fuel)
  | _, .or p q, fuel => PC.or (denote p fuel) (denote q fuel)
  | _, .many p, fuel => PC.manyF (denote p fuel) fuel
  | _, .untilC p q, fuel => PC.untilP (denote p fuel) (denote q fuel) fuel

/-- A parser whose successful remainders are always suffixes of its
input (the consumed part is a genuine prefix). -/
def Suffixy (p : Parser α) : Prop :=
  ∀ input v rest, p input = .ok v rest → ∃ pre, input = pre ++ rest

/-- A sample `from_fn` parser that consumes exactly one character of any
nonempty input, used to instantiate universally quantified theorems. -/
def consumeOne : Parser Unit := fun input =>
  match input with
  | [] => .err
  | _ :: rest => .ok () rest

/-- A sample `from_fn` parser that succeeds on every input without
consuming anything, used to instantiate universally quantified theorems. -/
def epsilonOk : Parser Unit := fun input => .ok () input

/-! ## Theorems -/

/-- C1: the top-level entry point `parse(p, s)` succeeds with value `v`
iff `p` applied to `s` succeeds with value `v` and an empty remainder;
whenever `p` succeeds on `s` with a non-empty remainder, `parse(p, s)`
fails. -/
theorem parse_whole_input {α : Type} (p : Parser α) (s : Str) :
    (∀ v : α, PC.parse p s = .ok v ↔ p s = .ok v []) ∧
    (∀ (v : α) (r : Str), p s = .ok v r → r ≠ [] → PC.parse p s = .err) := by
  constructor
  · intro v
    constructor
    · intro h
      cases hp : p s with
      | ok v' r =>
        by_cases hr : r = []
        · subst hr
          simp [PC.parse, hp] at h
          rw [h]
        · simp [PC.parse, hp, hr] at h
      | err => simp [PC.parse, hp] at h
      | panic => simp [PC.parse, hp] at h
      | more => simp [PC.parse, hp] at h
    · intro h
      simp [PC.parse, h]
  · intro v r h hr
    simp [PC.parse, h, hr]

/-- C1 witness: `character('a')` on `"a"` parses whole-input to `'a'`,
and on `"ab"` it succeeds with remainder `"b"`, so `parse` fails. -/
theorem parse_whole_input_witness :
    PC.parse (PC.character 'a') ['a'] = .ok 'a' ∧
    PC.parse (PC.character 'a') ['a', 'b'] = .err :=
  ⟨((parse_whole_input (PC.character 'a') ['a']).1 'a').mpr rfl,
   (parse_whole_input (PC.character 'a') ['a', 'b']).2 'a' ['b'] rfl (by decide)⟩

/-- C2: contrary to the claim, the primitives abort on a multi-byte
leading character: after matching `input.chars().next()` the source
returns the byte slice `&input[1..]`, which panics when the first
character is wider than one UTF-8 byte.  `any()` on `"é"` and
`character('é')` on `"éx"` both panic instead of returning a result. -/
theorem primitives_panic_on_multibyte :
    PC.any ['é'] = .panic ∧ PC.character 'é' ['é', 'x'] = .panic :=
  ⟨rfl, rfl⟩

/-- C6: `or(p, q)` is left-biased: a success of `p` is returned tagged as
the first branch (whatever `q` would do), `q` is consulted on the same
original input exactly when `p` failed, its success is tagged as the
second branch, and the whole fails iff both fail. -/
theorem or_left_biased {α β : Type} (p : Parser α) (q : Parser β) (s : Str) :
    (∀ (v : α) (r : Str), p s = .ok v r → PC.or p q s = .ok (.A v) r) ∧
    (∀ (v : β) (r : Str), p s = .err → q s = .ok v r → PC.or p q s = .ok (.B v) r) ∧
    (PC.or p q s = .err ↔ p s = .err ∧ q s = .err) ∧
    (p s ≠ .err → ∀ q' : Parser β, PC.or p q s = PC.or p q' s) := by
  refine ⟨?_, ?_, ?_, ?_⟩
  · intro v r h
    simp [PC.or, h]
  · intro v r hp hq
    simp [PC.or, hp, hq]
  · cases hp : p s with
    | ok v r => simp [PC.or, hp]
    | err => cases hq : q s <;> simp [PC.or, hp, hq]
    | panic => simp [PC.or, hp]
    | more => simp [PC.or, hp]
  · intro hp q'
    cases h : p s with
    | ok v r => simp [PC.or, h]
    | err => exact absurd h hp
    | panic => simp [PC.or, h]
    | more => simp [PC.or, h]

/-- C6 witness: on `"ab"` with both branches able to match, the first
branch wins; on `"b"` the second branch is used and tagged `B`; and the
result of a successful first branch does not depend on the second
parser. -/
theorem or_left_biased_witness :
    PC.or (PC.character 'a') (PC.any) ['a', 'b'] = .ok (.A 'a') ['b'] ∧
    PC.or (PC.character 'a') (PC.character 'b') ['b'] = .ok (.B 'b') [] ∧
    PC.or (PC.character 'a') (PC.character 'b') ['a'] =
      PC.or (PC.character 'a') (PC.character 'z') ['a'] :=
  ⟨(or_left_biased (PC.character 'a') PC.any ['a', 'b']).1 'a' ['b'] rfl,
   (or_left_biased (PC.character 'a') (PC.character 'b') ['b']).2.1 'b' [] rfl rfl,
   (or_left_biased (PC.character 'a') (PC.character 'b') ['a']).2.2.2
     (by decide) (PC.character 'z')⟩

/-- C7: `range` with an inverted (empty) inclusive range fails on every
input, and `one_of` with an empty character set fails on every input;
neither succeeds nor panics in the degenerate case. -/
theorem empty_bounds_always_fail (lo hi : Char) (s : Str) :
    (hi < lo → PC.range lo hi s = .err) ∧ PC.one_of [] s = .err := by
  constructor
  · intro h
    simp [PC.range, h]
  · simp [PC.one_of]

/-- C7 witness: the inverted range `'b'..='a'` and the empty set both
fail on the concrete input `"x"`. -/
theorem empty_bounds_always_fail_witness :
    PC.range 'b' 'a' ['x'] = .err ∧ PC.one_of [] ['x'] = .err :=
  ⟨(empty_bounds_always_fail 'b' 'a' ['x']).1 (by decide),
   (empty_bounds_always_fail 'b' 'a' ['x']).2⟩

/-- Helper: `character(c)` never panics when the matched character is one
UTF-8 byte wide (the byte slice `&input[1..]` is then a char boundary). -/
theorem character_no_panic (c : Char) (hc : c.utf8Size = 1) :
    ∀ u, PC.character c u ≠ .panic := by
  intro u
  cases u with
  | nil => simp [PC.character]
  | cons ch t =>
    simp only [PC.character]
    by_cases h : ch = c
    · subst h
      simp [hc]
    · simp [h]

/-- C3: `many(p)` never fails: for every parser `p`, every fuel and every
input the result is never `Err`; when `p` fails immediately the result is
the empty sequence with the input unchanged; and for a panic-free `p` the
loop, whenever it finishes within its fuel, finishes with a success. -/
theorem many_never_fails {α : Type} (p : Parser α) :
    (∀ (fuel : Nat) (s : Str), PC.manyF p fuel s ≠ .err) ∧
    (∀ (fuel : Nat) (s : Str), p s = .err → PC.manyF p (fuel + 1) s = .ok [] s) ∧
    ((∀ u, p u ≠ .panic) → ∀ (fuel : Nat) (s : Str),
      PC.manyF p fuel s = .more ∨ ∃ vs r, PC.manyF p fuel s = .ok vs r) := by
  refine ⟨?_, ?_, ?_⟩
  · intro fuel
    induction fuel with
    | zero => intro s; simp [PC.manyF]
    | succ f ih =>
      intro s
      cases hp : p s with
      | ok v rest =>
        cases hm : PC.manyF p f rest with
        | ok vs r2 => simp [PC.manyF, hp, hm]
        | err => exact absurd hm (ih rest)
        | panic => simp [PC.manyF, hp, hm]
        | more => simp [PC.manyF, hp, hm]
      | err => simp [PC.manyF, hp]
      | panic => simp [PC.manyF, hp]
      | more => simp [PC.manyF, hp]
  · intro fuel s hp
    simp [PC.manyF, hp]
  · intro hnp fuel
    induction fuel with
    | zero => intro s; left; rfl
    | succ f ih =>
      intro s
      cases hp : p s with
      | ok v rest =>
        rcases ih rest with hm | ⟨vs, r2, hm⟩
        · left; simp [PC.manyF, hp, hm]
        · right; exact ⟨v :: vs, r2, by simp [PC.manyF, hp, hm]⟩
      | err => right; exact ⟨[], s, by simp [PC.manyF, hp]⟩
      | panic => exact absurd hp (hnp s)
      | more => left; simp [PC.manyF, hp]

/-- C3 witness: with `character('1')` failing immediately on `"2"`, `many`
succeeds with the empty sequence and the untouched remainder; it never
errs there; and panic-freedom gives a success disjunct on `"11"`. -/
theorem many_never_fails_witness :
    PC.manyF (PC.character '1') 3 ['2'] ≠ .err ∧
    PC.manyF (PC.character '1') 1 ['2'] = .ok [] ['2'] ∧
    (PC.manyF (PC.character '1') 3 ['1', '1'] = .more ∨
      ∃ vs r, PC.manyF (PC.character '1') 3 ['1', '1'] = .ok vs r) :=
  ⟨(many_never_fails (PC.character '1')).1 3 ['2'],
   (many_never_fails (PC.character '1')).2.1 0 ['2'] rfl,
   (many_never_fails (PC.character '1')).2.2 (character_no_panic '1' rfl) 3 ['1', '1']⟩

/-- C10: if every success of `p` strictly shortens the remainder (and `p`
is a real parser, i.e. always returns), then the `many(p)` loop finishes
on every finite input once the fuel exceeds the input length; and if `p`
can succeed on some input without consuming anything, the loop never
finishes on that input, whatever the fuel. -/
theorem many_termination {α : Type} (p : Parser α) :
    ((∀ u v r, p u = .ok v r → r.length < u.length) →
      (∀ u, p u ≠ .more) →
      ∀ (s : Str) (fuel : Nat), s.length < fuel → PC.manyF p fuel s ≠ .more) ∧
    (∀ (u : Str) (v : α), p u = .ok v u → ∀ fuel : Nat, PC.manyF p fuel u = .more) := by
  constructor
  · intro hcons htot s fuel
    induction fuel generalizing s with
    | zero => intro h; omega
    | succ f ih =>
      intro hlen
      cases hp : p s with
      | ok v rest =>
        have hr : rest.length < f := by
          have := hcons s v rest hp
          omega
        have := ih rest hr
        cases hm : PC.manyF p f rest with
        | ok vs r2 => simp [PC.manyF, hp, hm]
        | err => simp [PC.manyF, hp, hm]
        | panic => simp [PC.manyF, hp, hm]
        | more => exact absurd hm this
      | err => simp [PC.manyF, hp]
      | panic => simp [PC.manyF, hp]
      | more => exact absurd hp (htot s)
  · intro u v hp fuel
    induction fuel with
    | zero => rfl
    | succ f ih => simp [PC.manyF, hp, ih]

/-- C10 witness: the one-character consumer terminates on `"ab"` with fuel
3, and the never-consuming always-succeeding parser makes the loop miss
every fuel budget even on empty input. -/
theorem many_termination_witness :
    PC.manyF consumeOne 3 ['a', 'b'] ≠ .more ∧
    PC.manyF epsilonOk 3 [] = .more :=
  ⟨(many_termination consumeOne).1
      (fun u v r h => by
        cases u with
        | nil => simp [consumeOne] at h
        | cons c t =>
          simp [consumeOne] at h
          simp [← h])
      (fun u => by cases u <;> simp [consumeOne])
      ['a', 'b'] 3 (by decide),
   (many_termination epsilonOk).2 [] () rfl 3⟩

/-- Helper: whenever the `until` loop body returns successfully, the
terminator parser succeeds on the returned remainder (the loop exits only
through a non-consuming terminator probe). -/
theorem untilGo_ok_terminator {α β : Type} (p : Parser α) (t : Parser β) :
    ∀ (fuel : Nat) (s : Str) (vs : List α) (r : Str),
      PC.untilGo p t fuel s = .ok vs r → ∃ v r', t r = .ok v r' := by
  intro fuel
  induction fuel with
  | zero => intro s vs r h; exact absurd h (by simp [PC.untilGo])
  | succ f ih =>
    intro s vs r h
    cases ht : t s with
    | ok v r' =>
      simp [PC.untilGo, ht] at h
      exact ⟨v, r', by rw [← h.2, ht]⟩
    | err =>
      cases hp : p s with
      | ok v rest =>
        cases hg : PC.untilGo p t f rest with
        | ok vs' r2 =>
          simp [PC.untilGo, ht, hp, hg] at h
          rw [← h.2]
          exact ih rest vs' r2 hg
        | err => simp [PC.untilGo, ht, hp, hg] at h
        | panic => simp [PC.untilGo, ht, hp, hg] at h
        | more => simp [PC.untilGo, ht, hp, hg] at h
      | err => simp [PC.untilGo, ht, hp] at h
      | panic => simp [PC.untilGo, ht, hp] at h
      | more => simp [PC.untilGo, ht, hp] at h
    | panic => simp [PC.untilGo, ht] at h
    | more => simp [PC.untilGo, ht] at h

/-- C5: `until(p, t)` fails immediately on empty input; it fails when both
the terminator probe and the element parser fail on the current input; a
terminator match on (nonempty) input is honoured before `p` is even
consulted, leaving the input untouched; and every success leaves the
remainder positioned right before a match of the terminator, which
`until` itself has not consumed. -/
theorem until_error_handling {α β : Type} (p : Parser α) (t : Parser β) :
    (∀ fuel : Nat, PC.untilP p t fuel [] = .err) ∧
    (∀ (fuel : Nat) (s : Str), t s = .err → p s = .err →
      PC.untilP p t (fuel + 1) s = .err) ∧
    (∀ (fuel : Nat) (s : Str) (v : β) (r' : Str), s ≠ [] → t s = .ok v r' →
      PC.untilP p t (fuel + 1) s = .ok [] s) ∧
    (∀ (fuel : Nat) (s : Str) (vs : List α) (r : Str),
      PC.untilP p t fuel s = .ok vs r → ∃ v r', t r = .ok v r') := by
  refine ⟨?_, ?_, ?_, ?_⟩
  · intro fuel
    simp [PC.untilP]
  · intro fuel s ht hp
    by_cases hs : s = []
    · simp [PC.untilP, hs]
    · simp [PC.untilP, hs, PC.untilGo, ht, hp]
  · intro fuel s v r' hs ht
    simp [PC.untilP, hs, PC.untilGo, ht]
  · intro fuel s vs r h
    by_cases hs : s = []
    · simp [PC.untilP, hs] at h
    · simp only [PC.untilP, hs, if_false] at h
      exact untilGo_ok_terminator p t fuel s vs r h

/-- C5 witness: `until(any, character('!'))` fails on `""`; it fails on
`"b"` via neither-matches with element `character('a')`; a terminator at
position 0 of `"!"` returns the empty sequence untouched; and the crate's
own `"hello!"` run leaves a remainder on which the terminator matches. -/
theorem until_error_handling_witness :
    PC.untilP (PC.character 'a') (PC.character '!') 5 [] = .err ∧
    PC.untilP (PC.character 'a') (PC.character '!') 1 ['b'] = .err ∧
    PC.untilP (PC.character 'a') (PC.character '!') 1 ['!'] = .ok [] ['!'] ∧
    ∃ v r', PC.character '!' ['!'] = .ok v r' :=
  ⟨(until_error_handling (PC.character 'a') (PC.character '!')).1 5,
   (until_error_handling (PC.character 'a') (PC.character '!')).2.1 0 ['b'] rfl rfl,
   (until_error_handling (PC.character 'a') (PC.character '!')).2.2.1 0 ['!'] '!' [] (by decide) rfl,
   (until_error_handling PC.any (PC.character '!')).2.2.2 10
     ['h', 'i', '!'] ['h', 'i'] ['!'] rfl⟩

/-- C4 counterexample: the always-succeeding terminator `epsilonOk`
matches at position 0 of the empty input, yet `until` returns `Err`
there (the source rejects empty input before probing the terminator),
not the empty sequence with unchanged remainder the claim promises. -/
theorem until_empty_input_cex :
    epsilonOk ([] : Str) = .ok () [] ∧
    PC.untilP (PC.character 'a') epsilonOk 5 [] = .err ∧
    (PRes.err : PRes (List Char)) ≠ .ok [] [] :=
  ⟨rfl, rfl, by decide⟩

/-- Helper: when the terminator fails on every suffix of `s` and the
element parser always returns and consumes a nonempty prefix on success,
the `until` loop runs out of input and returns the element parser's
`Err`, provided the fuel exceeds the input length. -/
theorem untilGo_err_of_no_terminator {α β : Type} (p : Parser α) (t : Parser β) (s : Str)
    (hcons : ∀ u v r, p u = .ok v r → ∃ c pre, u = (c :: pre) ++ r)
    (htot : ∀ u, p u ≠ .panic ∧ p u ≠ .more)
    (ht : ∀ u, List.IsSuffix u s → t u = .err) :
    ∀ (fuel : Nat) (u : Str), List.IsSuffix u s → u.length < fuel →
      PC.untilGo p t fuel u = .err := by
  intro fuel
  induction fuel with
  | zero => intro u _ h; omega
  | succ f ih =>
    intro u hsuf hlen
    have htu := ht u hsuf
    cases hp : p u with
    | ok v rest =>
      obtain ⟨c, pre, hu⟩ := hcons u v rest hp
      have hsuf2 : List.IsSuffix rest s :=
        List.IsSuffix.trans ⟨c :: pre, hu.symm⟩ hsuf
      have hlen2 : rest.length < f := by
        rw [hu] at hlen
        simp at hlen
        omega
      have hrec := ih rest hsuf2 hlen2
      simp [PC.untilGo, htu, hp, hrec]
    | err => simp [PC.untilGo, htu, hp]
    | panic => exact absurd hp (htot u).1
    | more => exact absurd hp (htot u).2

/-- C4 (amended): on a NONEMPTY input whose position 0 matches the
terminator, `until(p, t)` immediately returns the empty sequence with the
remainder equal to the original input, the terminator unconsumed (on
empty input it fails instead, whatever the terminator would say); and
when the element parser always returns and consumes a nonempty prefix on
success while the terminator matches at no position of the input,
`until(p, t)` fails (for any fuel beyond the input length). -/
theorem until_terminator_amended {α β : Type} (p : Parser α) (t : Parser β) (s : Str) :
    (∀ (fuel : Nat) (v : β) (r : Str), s ≠ [] → t s = .ok v r →
      PC.untilP p t (fuel + 1) s = .ok [] s) ∧
    ((∀ u v r, p u = .ok v r → ∃ c pre, u = (c :: pre) ++ r) →
      (∀ u, p u ≠ .panic ∧ p u ≠ .more) →
      (∀ u, List.IsSuffix u s → t u = .err) →
      ∀ fuel : Nat, s.length < fuel → PC.untilP p t fuel s = .err) := by
  constructor
  · intro fuel v r hs ht
    simp [PC.untilP, hs, PC.untilGo, ht]
  · intro hcons htot ht fuel hlen
    by_cases hs : s = []
    · simp [PC.untilP, hs]
    · simp only [PC.untilP, hs, if_false]
      exact untilGo_err_of_no_terminator p t s hcons htot ht fuel s
        (List.suffix_refl s) hlen

/-- C4 witness: a terminator match at position 0 of the nonempty `"!"`
returns the empty sequence unconsumed; and with the one-character
consumer as element and `character('!')` as terminator, `until` fails on
`"ab"`, an input the terminator matches nowhere. -/
theorem until_terminator_amended_witness :
    PC.untilP (PC.character 'a') (PC.character '!') 1 ['!'] = .ok [] ['!'] ∧
    PC.untilP consumeOne (PC.character '!') 3 ['a', 'b'] = .err :=
  ⟨(until_terminator_amended (PC.character 'a') (PC.character '!') ['!']).1
      0 '!' [] (by decide) rfl,
   (until_terminator_amended consumeOne (PC.character '!') ['a', 'b']).2
      (fun u v r h => by
        cases u with
        | nil => simp [consumeOne] at h
        | cons c tl =>
          simp [consumeOne] at h
          exact ⟨c, [], by rw [← h]; rfl⟩)
      (fun u => by cases u <;> simp [consumeOne])
      (fun u hu => by
        have hmem : u ∈ (['a', 'b'] : Str).tails := (List.mem_tails u ['a', 'b']).mpr hu
        simp [List.tails] at hmem
        rcases hmem with h | h | h <;> subst h <;> rfl)
      3 (by decide)⟩

/-- Helper: `character(c)` returns a suffix remainder. -/
theorem suffixy_character (c : Char) : Suffixy (PC.character c) := by
  intro s v r h
  cases s with
  | nil => simp [PC.character] at h
  | cons ch tl =>
    by_cases hc : ch = c
    · subst hc
      by_cases hu : ch.utf8Size = 1
      · simp [PC.character, hu] at h
        exact ⟨[ch], by simp [h.2]⟩
      · simp [PC.character, hu] at h
    · simp [PC.character, hc] at h

/-- Helper: `any()` returns a suffix remainder. -/
theorem suffixy_any : Suffixy PC.any := by
  intro s v r h
  cases s with
  | nil => simp [PC.any] at h
  | cons ch tl =>
    by_cases hu : ch.utf8Size = 1
    · simp [PC.any, hu] at h
      exact ⟨[ch], by simp [h.2]⟩
    · simp [PC.any, hu] at h

/-- Helper: `one_of(chars)` returns a suffix remainder. -/
theorem suffixy_one_of (chars : List Char) : Suffixy (PC.one_of chars) := by
  intro s v r h
  by_cases hcs : chars = []
  · simp [PC.one_of, hcs] at h
  · cases s with
    | nil => simp [PC.one_of, hcs] at h
    | cons ch tl =>
      by_cases hm : ch ∈ chars
      · by_cases hu : ch.utf8Size = 1
        · simp [PC.one_of, hcs, hm, hu] at h
          exact ⟨[ch], by simp [h.2]⟩
        · simp [PC.one_of, hcs, hm, hu] at h
      · simp [PC.one_of, hcs, hm] at h

/-- Helper: `range(lo..=hi)` returns a suffix remainder. -/
theorem suffixy_range (lo hi : Char) : Suffixy (PC.range lo hi) := by
  intro s v r h
  by_cases hr : hi < lo
  · simp [PC.range, hr] at h
  · cases s with
    | nil => simp [PC.range, hr] at h
    | cons ch tl =>
      by_cases hm : lo ≤ ch ∧ ch ≤ hi
      · by_cases hu : ch.utf8Size = 1
        · simp [PC.range, hr, hm, hu] at h
          exact ⟨[ch], by simp [h.2]⟩
        · simp [PC.range, hr, hm, hu] at h
      · simp [PC.range, hr, hm] at h

/-- Helper: `map` preserves the suffix-remainder property. -/
theorem suffixy_map {α β : Type} {p : Parser α} (f : α → β)
    (hp : Suffixy p) : Suffixy (PC.map p f) := by
  intro s v r h
  cases hps : p s with
  | ok v' r' =>
    simp [PC.map, hps] at h
    rcases hp s v' r' hps with ⟨pre, hpre⟩
    exact ⟨pre, by rw [← h.2]; exact hpre⟩
  | err => simp [PC.map, hps] at h
  | panic => simp [PC.map, hps] at h
  | more => simp [PC.map, hps] at h

/-- Helper: `flat_map` preserves the suffix-remainder property. -/
theorem suffixy_flat_map {α β : Type} {p : Parser α} {f : α → Parser β}
    (hp : Suffixy p) (hf : ∀ a, Suffixy (f a)) : Suffixy (PC.flat_map p f) := by
  intro s v r h
  cases hps : p s with
  | ok v' mid =>
    simp [PC.flat_map, hps] at h
    rcases hp s v' mid hps with ⟨pre1, hpre1⟩
    rcases hf v' mid v r h with ⟨pre2, hpre2⟩
    exact ⟨pre1 ++ pre2, by rw [hpre1, hpre2, List.append_assoc]⟩
  | err => simp [PC.flat_map, hps] at h
  | panic => simp [PC.flat_map, hps] at h
  | more => simp [PC.flat_map, hps] at h

/-- Helper: `zip_left` preserves the suffix-remainder property. -/
theorem suffixy_zip_left {α β : Type} {p : Parser α} {q : Parser β}
    (hp : Suffixy p) (hq : Suffixy q) : Suffixy (PC.zip_left p q) := by
  intro s v r h
  cases hps : p s with
  | ok v' mid =>
    cases hqs : q mid with
    | ok w r2 =>
      simp [PC.zip_left, hps, hqs] at h
      rcases hp s v' mid hps with ⟨pre1, hpre1⟩
      rcases hq mid w r2 hqs with ⟨pre2, hpre2⟩
      exact ⟨pre1 ++ pre2, by rw [← h.2, hpre1, hpre2, List.append_assoc]⟩
    | err => simp [PC.zip_left, hps, hqs] at h
    | panic => simp [PC.zip_left, hps, hqs] at h
    | more => simp [PC.zip_left, hps, hqs] at h
  | err => simp [PC.zip_left, hps] at h
  | panic => simp [PC.zip_left, hps] at h
  | more => simp [PC.zip_left, hps] at h

/-- Helper: `zip_right` preserves the suffix-remainder property. -/
theorem suffixy_zip_right {α β : Type} {p : Parser α} {q : Parser β}
    (hp : Suffixy p) (hq : Suffixy q) : Suffixy (PC.zip_right p q) := by
  intro s v r h
  cases hps : p s with
  | ok v' mid =>
    simp [PC.zip_right, hps] at h
    rcases hp s v' mid hps with ⟨pre1, hpre1⟩
    rcases hq mid v r h with ⟨pre2, hpre2⟩
    exact ⟨pre1 ++ pre2, by rw [hpre1, hpre2, List.append_assoc]⟩
  | err => simp [PC.zip_right, hps] at h
  | panic => simp [PC.zip_right, hps] at h
  | more => simp [PC.zip_right, hps] at h

/-- Helper: `or` preserves the suffix-remainder property. -/
theorem suffixy_or {α β : Type} {p : Parser α} {q : Parser β}
    (hp : Suffixy p) (hq : Suffixy q) : Suffixy (PC.or p q) := by
  intro s v r h
  cases hps : p s with
  | ok v' r' =>
    simp [PC.or, hps] at h
    rcases hp s v' r' hps with ⟨pre, hpre⟩
    exact ⟨pre, by rw [← h.2]; exact hpre⟩
  | err =>
    cases hqs : q s with
    | ok w r' =>
      simp [PC.or, hps, hqs] at h
      rcases hq s w r' hqs with ⟨pre, hpre⟩
      exact ⟨pre, by rw [← h.2]; exact hpre⟩
    | err => simp [PC.or, hps, hqs] at h
    | panic => simp [PC.or, hps, hqs] at h
    | more => simp [PC.or, hps, hqs] at h
  | panic => simp [PC.or, hps] at h
  | more => simp [PC.or, hps] at h

/-- Helper: `many` preserves the suffix-remainder property for every
fuel. -/
theorem suffixy_manyF {α : Type} {p : Parser α} (hp : Suffixy p) :
    ∀ fuel : Nat, Suffixy (PC.manyF p fuel) := by
  intro fuel
  induction fuel with
  | zero => intro s v r h; simp [PC.manyF] at h
  | succ f ih =>
    intro s v r h
    cases hps : p s with
    | ok v1 r1 =>
      cases hm : PC.manyF p f r1 with
      | ok vs r2 =>
        simp [PC.manyF, hps, hm] at h
        rcases hp s v1 r1 hps with ⟨pre1, hpre1⟩
        rcases ih r1 vs r2 hm with ⟨pre2, hpre2⟩
        exact ⟨pre1 ++ pre2, by rw [← h.2, hpre1, hpre2, List.append_assoc]⟩
      | err => simp [PC.manyF, hps, hm] at h
      | panic => simp [PC.manyF, hps, hm] at h
      | more => simp [PC.manyF, hps, hm] at h
    | err =>
      simp [PC.manyF, hps] at h
      exact ⟨[], by simp [h.2]⟩
    | panic => simp [PC.manyF, hps] at h
    | more => simp [PC.manyF, hps] at h

/-- Helper: the `until` loop preserves the suffix-remainder property of
its element parser (the terminator is only probed, never consumed). -/
theorem suffixy_untilGo {α β : Type} {p : Parser α} (q : Parser β) (hp : Suffixy p) :
    ∀ fuel : Nat, Suffixy (PC.untilGo p q fuel) := by
  intro fuel
  induction fuel with
  | zero => intro s v r h; simp [PC.untilGo] at h
  | succ f ih =>
    intro s v r h
    cases hqs : q s with
    | ok w r' =>
      simp [PC.untilGo, hqs] at h
      exact ⟨[], by simp [h.2]⟩
    | err =>
      cases hps : p s with
      | ok v1 r1 =>
        cases hg : PC.untilGo p q f r1 with
        | ok vs r2 =>
          simp [PC.untilGo, hqs, hps, hg] at h
          rcases hp s v1 r1 hps with ⟨pre1, hpre1⟩
          rcases ih r1 vs r2 hg with ⟨pre2, hpre2⟩
          exact ⟨pre1 ++ pre2, by rw [← h.2, hpre1, hpre2, List.append_assoc]⟩
        | err => simp [PC.untilGo, hqs, hps, hg] at h
        | panic => simp [PC.untilGo, hqs, hps, hg] at h
        | more => simp [PC.untilGo, hqs, hps, hg] at h
      | err => simp [PC.untilGo, hqs, hps] at h
      | panic => simp [PC.untilGo, hqs, hps] at h
      | more => simp [PC.untilGo, hqs, hps] at h
    | panic => simp [PC.untilGo, hqs] at h
    | more => simp [PC.untilGo, hqs] at h

/-- Helper: `Until::parse` preserves the suffix-remainder property. -/
theorem suffixy_untilP {α β : Type} {p : Parser α} (q : Parser β) (hp : Suffixy p)
    (fuel : Nat) : Suffixy (PC.untilP p q fuel) := by
  intro s v r h
  by_cases hs : s = []
  · simp [PC.untilP, hs] at h
  · simp only [PC.untilP, hs, if_false] at h
    exact suffixy_untilGo q hp fuel s v r h

/-- Helper: every composed parser is suffix-respecting. -/
theorem suffixy_denote : ∀ {α : Type} (g : PSyn α) (fuel : Nat), Suffixy (denote g fuel) := by
  intro α g
  induction g with
  | character c => exact fun fuel => suffixy_character c
  | range lo hi => exact fun fuel => suffixy_range lo hi
  | one_of cs => exact fun fuel => suffixy_one_of cs
  | any => exact fun fuel => suffixy_any
  | map p f ihp => exact fun fuel => suffixy_map f (ihp fuel)
  | flat_map p f ihp ihf =>
    exact fun fuel => suffixy_flat_map (ihp fuel) (fun a => ihf a fuel)
  | zip_left p q ihp ihq => exact fun fuel => suffixy_zip_left (ihp fuel) (ihq fuel)
  | zip_right p q ihp ihq => exact fun fuel => suffixy_zip_right (ihp fuel) (ihq fuel)
  | or p q ihp ihq => exact fun fuel => suffixy_or (ihp fuel) (ihq fuel)
  | many p ihp => exact fun fuel => suffixy_manyF (ihp fuel) fuel
  | untilC p q ihp ihq => exact fun fuel => suffixy_untilP (denote q fuel) (ihp fuel) fuel

/-- C8: for every parser built by composing the crate's primitives with
its combinators, a success on `s` with remainder `r` means `s` is the
consumed prefix concatenated with `r`, and `r` is a suffix of `s` —
never fabricated, reordered or duplicated content. -/
theorem composed_remainder_suffix {α : Type} (g : PSyn α) (fuel : Nat) (s : Str)
    (v : α) (r : Str) (h : denote g fuel s = .ok v r) :
    (∃ pre, s = pre ++ r) ∧ List.IsSuffix r s := by
  rcases suffixy_denote g fuel s v r h with ⟨pre, hpre⟩
  exact ⟨⟨pre, hpre⟩, ⟨pre, hpre.symm⟩⟩

/-- C8 witness: the composed parser `zip_left(any, character('b'))` on
`"abc"` succeeds with remainder `"c"`, a suffix of the input. -/
theorem composed_remainder_suffix_witness :
    (∃ pre, (['a', 'b', 'c'] : Str) = pre ++ ['c']) ∧
      List.IsSuffix ['c'] (['a', 'b', 'c'] : Str) :=
  composed_remainder_suffix (PSyn.zip_left PSyn.any (PSyn.character 'b')) 1
    ['a', 'b', 'c'] 'a' ['c'] rfl

/-- Helper: an ASCII digit is none of the characters the three branches
of `lisp_object` can start with, and is below both letter ranges. -/
theorem digit_facts (d : Char) (hd : d.isDigit = true) :
    d ≠ '"' ∧ ¬ ('a' ≤ d) ∧ ¬ ('A' ≤ d) ∧ d ≠ '_' ∧ d ≠ '(' := by
  have h9 : d ≤ '9' := by
    simp [Char.isDigit] at hd
    exact Char.le_def.mpr hd.2
  refine ⟨?_, ?_, ?_, ?_, ?_⟩
  · intro h; subst h; exact absurd hd (by decide)
  · intro h; exact absurd (le_trans h h9) (by decide)
  · intro h; exact absurd (le_trans h h9) (by decide)
  · intro h; subst h; exact absurd hd (by decide)
  · intro h; subst h; exact absurd hd (by decide)

/-- Helper: on an input starting with an ASCII digit every branch of
`lisp_object` fails (strings need `"`, identifiers a letter or
underscore, lists `(`), so `lisp_object` returns `Err` for every positive
fuel and `more` for fuel 0. -/
theorem lisp_object_digit_err (d : Char) (hd : d.isDigit = true) (s : Str) :
    ∀ fuel : Nat, LC.lisp_object fuel (d :: s) = .err ∨
      LC.lisp_object fuel (d :: s) = .more := by
  intro fuel
  cases fuel with
  | zero => right; rfl
  | succ f =>
    left
    obtain ⟨h1, h2, h3, h4, h5⟩ := digit_facts d hd
    simp [LC.lisp_object, PC.map, PC.or, LC.lisp_string, LC.string, PC.zip_left,
          PC.flat_map, PC.character, h1, LC.lisp_ident, LC.ident, LC.identFirst,
          PC.range, LC.lisp_list, PC.zip_right, h2, h3, h4, h5]

/-- C9 counterexample: there is no non-empty all-digit input on which the
grammar's top-level parser `lisp_object` succeeds — integer literals are
not reachable from `lisp_object` (the `number` parser is never wired into
its alternation). -/
theorem lisp_object_rejects_integers_cex :
    ¬ ∃ (s : Str) (fuel : Nat) (v : LispObject) (r : Str),
        s ≠ [] ∧ (∀ c ∈ s, c.isDigit = true) ∧ LC.lisp_object fuel s = .ok v r := by
  rintro ⟨s, fuel, v, r, hne, hdig, hok⟩
  cases s with
  | nil => exact hne rfl
  | cons d t =>
    have hd : d.isDigit = true := hdig d (List.mem_cons_self d t)
    rcases lisp_object_digit_err d hd t fuel with h | h <;> rw [h] at hok <;>
      exact PRes.noConfusion hok

/-- C9 (amended): the grammar's top-level `lisp_object` covers
identifiers, quoted strings and parenthesized lists (witnessed on `"a"`,
`"\"h\""` and `"()"`), and the standalone `number` parser succeeds on the
digit string `"123"` with value 123; but `lisp_object` itself never
succeeds on an input starting with a digit — in particular on no
non-empty digit string — because `number` is not part of its
alternation. -/
theorem lisp_grammar_coverage :
    LC.lisp_object 9 ['a'] = .ok (.Ident ['a']) [] ∧
    LC.lisp_object 9 ['"', 'h', '"'] = .ok (.String ['h']) [] ∧
    LC.lisp_object 9 ['(', ')'] = .ok (.List []) [] ∧
    LC.number 4 ['1', '2', '3'] = .ok 123 [] ∧
    (∀ (d : Char) (s : Str) (fuel : Nat) (v : LispObject) (r : Str),
        d.isDigit = true → LC.lisp_object fuel (d :: s) ≠ .ok v r) := by
  refine ⟨rfl, rfl, rfl, rfl, ?_⟩
  intro d s fuel v r hd hok
  rcases lisp_object_digit_err d hd s fuel with h | h <;> rw [h] at hok <;>
    exact PRes.noConfusion hok

/-- C9 witness: the digit-rejection clause applied at the concrete input
`"5"`. -/
theorem lisp_grammar_coverage_witness :
    LC.lisp_object 3 ['5'] ≠ .ok (.Ident ['5']) [] :=
  lisp_grammar_coverage.2.2.2.2 '5' [] 3 (.Ident ['5']) [] (by decide)
